import Mathlib

/-!
Shallow embedding of the TRIQS/itertools C++ library (header-only range
adapters) together with proofs about its behaviour.

Conventions of the embedding:
- C++ `long` / `std::ptrdiff_t` become `Int`; C++ `/` on signed integers
  truncates toward zero and is therefore modelled with `Int.tdiv`.
- A container is modelled as a `List`; an iterator into a container is
  modelled as its `Nat` (or `Int`) position, with iterator equality being
  position equality and `std::next`/`std::advance` being addition.
- Constructors and operations that can throw are modelled with
  `Except String`.
- Loops (`for (auto x : rg)`) are modelled by fuel-indexed run functions
  that compare the current iterator with the end iterator / sentinel,
  dereference, and increment, exactly as the C++ iteration protocol does.
  Running out of fuel and dereferencing out of bounds produce two
  distinguishable errors.
-/

namespace Itertools

/-! ### Integer range (range.hpp) -/

/-- The data of `itertools::range`: first value, last value (excluded) and
step (range.hpp lines 74-82). -/
structure Range where
  first : Int
  last : Int
  step : Int
  deriving DecidableEq, Repr

/-- The three-argument constructor `range(long, long, long)`
(range.hpp lines 120-122): throws iff the step size is zero. -/
def mkRange (first last step : Int) : Except String Range :=
  if step = 0 then Except.error "Step-size cannot be zero in construction of integer range"
  else Except.ok ⟨first, last, step⟩

/-- `range::size()` (range.hpp line 143):
`std::max(0l, (last_ + step_ - (step_ > 0 ? 1 : -1) - first_) / step_)`,
with C++ signed division truncating toward zero (`Int.tdiv`). -/
def Range.size (r : Range) : Int :=
  max 0 (Int.tdiv (r.last + r.step - (if 0 < r.step then 1 else -1) - r.first) r.step)

/-- `range + shift` (range.hpp line 154). -/
def Range.shift (r : Range) (s : Int) : Range :=
  ⟨r.first + s, r.last + s, r.step⟩

/-- The data of `range::const_iterator` (range.hpp lines 169-177):
current value `pos`, last value of the range, step size. -/
structure RangeIter where
  pos : Int
  last : Int
  step : Int
  deriving DecidableEq, Repr

/-- `const_iterator::operator++` (range.hpp lines 198-201): `pos += step`. -/
def RangeIter.increment (it : RangeIter) : RangeIter :=
  ⟨it.pos + it.step, it.last, it.step⟩

/-- `const_iterator::atEnd()` (range.hpp line 218):
`step > 0 ? pos >= last : pos <= last`. -/
def RangeIter.atEnd (it : RangeIter) : Bool :=
  if 0 < it.step then it.last ≤ it.pos else it.pos ≤ it.last

/-- `const_iterator::operator==` (range.hpp lines 226-228):
`(other.pos == this->pos) || (other.atEnd() && this->atEnd())`. -/
def RangeIter.eq (a other : RangeIter) : Bool :=
  (other.pos == a.pos) || (other.atEnd && a.atEnd)

/-- `range::begin()` (range.hpp line 255): `{first_, last_, step_}`. -/
def Range.begin (r : Range) : RangeIter :=
  ⟨r.first, r.last, r.step⟩

/-- `range::end()` (range.hpp line 264): `{last_, last_, step_}` — the
canonical end iterator whose current value is the excluded last value. -/
def Range.endIter (r : Range) : RangeIter :=
  ⟨r.last, r.last, r.step⟩

/-- `itertools::foreach(rg, f)` (range.hpp lines 401-404) runs
`for (i = first; i < last; i += step) f(i);`. This fuel-indexed function
collects, in order, the values the loop passes to `f`; `none` means the
given fuel was not enough to finish the loop. -/
def foreachRun : Nat → Int → Int → Int → Option (List Int)
  | 0, _, _, _ => none
  | fuel + 1, i, last, step =>
    if i < last then (foreachRun fuel (i + step) last step).map (fun l => i :: l)
    else some []

/-- Reference definition following the spec's words: the count of terms
`first, first + step, first + 2*step, ...` strictly before `last` in the
direction of `step` (zero when `step = 0`, a case the spec excludes). -/
def countStrictlyBefore (first last step : Int) : Nat :=
  if 0 < step then
    if first < last then countStrictlyBefore (first + step) last step + 1 else 0
  else if step < 0 then
    if last < first then countStrictlyBefore (first + step) last step + 1 else 0
  else 0
termination_by (if 0 < step then last - first else first - last).toNat
decreasing_by
  all_goals split_ifs
  all_goals omega

/-- Reference definition following the spec's words: the list of values on
which the `foreach` loop invokes `f`, i.e. the longest prefix of
`first, first + step, first + 2*step, ...` whose members are all strictly
less than `last` (described by the spec for positive steps; for
non-positive steps the list below is empty, and the claims only use it in
cases where the loop also produces nothing). -/
def foreachVals (first last step : Int) : List Int :=
  if 0 < step ∧ first < last then first :: foreachVals (first + step) last step
  else []
termination_by (last - first).toNat
decreasing_by omega

/-! ### Chunk partitioning helper (utils.hpp) -/

/-- `itertools::chunk_range` (utils.hpp lines 92-100), verbatim with C++
truncating division. -/
def chunk_range (first last : Int) (n_chunks rank : Int) : Int × Int :=
  let total_size := last - first
  let chunk_size := Int.tdiv total_size n_chunks
  let n_large_nodes := total_size - n_chunks * chunk_size
  if rank < n_large_nodes then
    (first + rank * (chunk_size + 1), first + (rank + 1) * (chunk_size + 1))
  else
    (first + n_large_nodes + rank * chunk_size, first + n_large_nodes + (rank + 1) * chunk_size)

/-! ### Generic container iterators

A container iterator is its position; dereferencing uses `getElem?` and
fails (models undefined behaviour) when the position is out of bounds. -/

/-- Dereference a position (possibly an `Int`, as produced by
`std::next` with a `std::ptrdiff_t` count) in a container. -/
def listGetI (l : List α) (i : Int) : Option α :=
  if i < 0 then none else l[i.toNat]?

/-! ### Zip (zip.hpp) -/

/-- The data of `detail::zip_iter` for two ranges (zip.hpp line 51): the
tuple of the current iterators of the original ranges, as positions. -/
structure ZipIter where
  itA : Nat
  itB : Nat
  deriving DecidableEq, Repr

/-- `zip_iter::increment()` (zip.hpp lines 64-68): increment all original
iterators. -/
def ZipIter.increment (it : ZipIter) : ZipIter :=
  ⟨it.itA + 1, it.itB + 1⟩

/-- `zip_iter::operator==(sentinel_t)` (zip.hpp lines 88-92): true if ANY
original iterator equals the corresponding end iterator of the sentinel
(`m` and `n` are the end positions, i.e. the lengths). -/
def zipEqSentinel (m n : Nat) (it : ZipIter) : Bool :=
  it.itA == m || it.itB == n

/-- `zip_iter::dereference()` (zip.hpp lines 99-108): the tuple of the
dereferenced values of the original iterators. -/
def zipDeref (A : List α) (B : List β) (it : ZipIter) : Option (α × β) :=
  match A[it.itA]?, B[it.itB]? with
  | some a, some b => some (a, b)
  | _, _ => none

/-- Range-based for loop over `zip(A, B)`: compare against the sentinel,
dereference, increment; fuel-indexed. -/
def zipRun (A : List α) (B : List β) : Nat → ZipIter → Except String (List (α × β))
  | 0, _ => Except.error "fuel exhausted"
  | fuel + 1, it =>
    if zipEqSentinel A.length B.length it then Except.ok []
    else
      match zipDeref A B it with
      | none => Except.error "dereference out of bounds"
      | some x => (zipRun A B fuel it.increment).map (fun l => x :: l)

/-- The element list of `zip(A, B)`: run the loop from `begin()` (all
positions 0, zip.hpp lines 166-168) with enough fuel for the shortest
range plus the final sentinel test. -/
def zipToList (A : List α) (B : List β) : Except String (List (α × β)) :=
  zipRun A B (min A.length B.length + 1) ⟨0, 0⟩

/-! ### Product (product.hpp) -/

/-- The data of `detail::prod_iter` for two ranges (product.hpp lines
60-72): the tuple of current iterators, as positions. The begin positions
are 0 and the end positions are the lengths, so they are not stored. -/
structure ProdIter where
  itA : Nat
  itB : Nat
  deriving DecidableEq, Repr

/-- `prod_iter::_increment<1>` followed by the conditional carry into
`_increment<0>` (product.hpp lines 90-105): increment the last iterator;
if it equals its end iterator (`n`, the length of the second range), reset
it to its begin iterator (position 0) and increment the first iterator,
with no wraparound check at index 0. -/
def ProdIter.increment (n : Nat) (it : ProdIter) : ProdIter :=
  let b := it.itB + 1
  if b = n then ⟨it.itA + 1, 0⟩ else ⟨it.itA, b⟩

/-- `prod_iter::operator==(sentinel_t)` (product.hpp line 125): true iff
the FIRST iterator equals the sentinel's iterator, which
`multiplied::end()` (line 200) sets to the end of the first range
(position `m`). -/
def prodEqSentinel (m : Nat) (it : ProdIter) : Bool :=
  it.itA == m

/-- `prod_iter::dereference()` (product.hpp lines 132-141): the tuple of
the dereferenced values of the current iterators. -/
def prodDeref (A : List α) (B : List β) (it : ProdIter) : Option (α × β) :=
  match A[it.itA]?, B[it.itB]? with
  | some a, some b => some (a, b)
  | _, _ => none

/-- Range-based for loop over `product(A, B)`: compare against the
sentinel, dereference, increment; fuel-indexed. -/
def prodRun (A : List α) (B : List β) : Nat → ProdIter → Except String (List (α × β))
  | 0, _ => Except.error "fuel exhausted"
  | fuel + 1, it =>
    if prodEqSentinel A.length it then Except.ok []
    else
      match prodDeref A B it with
      | none => Except.error "dereference out of bounds"
      | some x => (prodRun A B fuel (it.increment B.length)).map (fun l => x :: l)

/-- The element list of `product(A, B)`: run the loop from `begin()`
(all current iterators at their begin positions, product.hpp lines
174-176) with enough fuel for `m * n` elements plus the final test. -/
def prodToList (A : List α) (B : List β) : Except String (List (α × β)) :=
  prodRun A B (A.length * B.length + 1) ⟨0, 0⟩

/-- Reference definition following the spec's words: the row-major
enumeration of all pairs, with the second range varying fastest. -/
def prodSpec (A : List α) (B : List β) : List (α × β) :=
  (A.map (fun a => B.map (fun b => (a, b)))).flatten

/-! ### Slice (slice.hpp) -/

/-- The data of `detail::sliced` (slice.hpp lines 43-51): the original
range and the two indices. -/
structure Sliced (α : Type u) where
  rg : List α
  start_idx : Int
  end_idx : Int
  deriving DecidableEq, Repr

/-- `itertools::slice` (slice.hpp lines 138-140): stores
`std::max(start_idx, end_idx)` as the end index. -/
def slice (rg : List α) (start_idx end_idx : Int) : Sliced α :=
  ⟨rg, start_idx, max start_idx end_idx⟩

/-- `sliced::size()` (slice.hpp lines 66-69):
`std::min(total_size, end_idx) - start_idx`. -/
def Sliced.size (s : Sliced α) : Int :=
  min (s.rg.length : Int) s.end_idx - s.start_idx

/-- `sliced::cbegin()` (slice.hpp line 78): the source's begin advanced by
`start_idx` positions, i.e. position `start_idx`. -/
def Sliced.cbegin (s : Sliced α) : Int :=
  s.start_idx

/-- `sliced::cend()` (slice.hpp line 90): `cbegin()` advanced by `size()`
positions. -/
def Sliced.cend (s : Sliced α) : Int :=
  s.cbegin + s.size

/-- Range-based for loop over a sliced range: the slice reuses the source
range's iterators, so the loop compares positions, dereferences the
source, and increments by one; fuel-indexed. -/
def sliceRun (S : List α) : Nat → Int → Int → Except String (List α)
  | 0, _, _ => Except.error "fuel exhausted"
  | fuel + 1, pos, endpos =>
    if pos = endpos then Except.ok []
    else
      match listGetI S pos with
      | none => Except.error "dereference out of bounds"
      | some a => (sliceRun S fuel (pos + 1) endpos).map (fun l => a :: l)

/-- The element list of `slice(S, start_idx, end_idx)`: run the loop from
`cbegin()` to `cend()` with enough fuel for the whole source plus the
final test. -/
def sliceToList (S : List α) (start_idx end_idx : Int) : Except String (List α) :=
  let sl := slice S start_idx end_idx
  sliceRun S (S.length + 1) sl.cbegin sl.cend

/-! ### Stride (stride.hpp) -/

/-- The data of `detail::stride_iter` (stride.hpp lines 47-52): an
iterator of the original range (a position) and the stride. -/
structure StrideIter where
  it : Int
  stride : Int
  deriving DecidableEq, Repr

/-- The `stride_iter` constructor (stride.hpp lines 63-65): throws iff
`stride <= 0`. -/
def mkStrideIter (it strideVal : Int) : Except String StrideIter :=
  if strideVal ≤ 0 then Except.error "The itertools::detail::strided range requires a positive stride"
  else Except.ok ⟨it, strideVal⟩

/-- The data of `detail::strided` (stride.hpp lines 92-97): the original
range and the stride. -/
structure Strided (α : Type u) where
  rg : List α
  stride : Int
  deriving DecidableEq, Repr

/-- `itertools::stride` (stride.hpp line 180): plain aggregate
initialization `{std::forward<R>(rg), stride}` of the adapter — no
validation happens here, so construction always succeeds. -/
def stride (rg : List α) (strideVal : Int) : Except String (Strided α) :=
  Except.ok ⟨rg, strideVal⟩

/-- `strided::end_offset()` (stride.hpp lines 113-116):
`size == 0 ? 0 : ((size - 1) / stride + 1) * stride` with C++ truncating
division. -/
def Strided.end_offset (s : Strided α) : Int :=
  let size : Int := s.rg.length
  if size = 0 then 0 else (Int.tdiv (size - 1) s.stride + 1) * s.stride

/-- `strided::cbegin()` (stride.hpp line 126): `{std::cbegin(rg), stride}`
— constructs a `stride_iter`, which validates the stride. -/
def Strided.cbegin (s : Strided α) : Except String StrideIter :=
  mkStrideIter 0 s.stride

/-- `strided::cend()` (stride.hpp line 139):
`{std::next(std::cbegin(rg), end_offset()), stride}` — constructs a
`stride_iter`, which validates the stride. -/
def Strided.cend (s : Strided α) : Except String StrideIter :=
  mkStrideIter s.end_offset s.stride

/-- Range-based for loop over a strided range: compare the positions
(`stride_iter::operator==`, stride.hpp line 76), dereference the original
iterator (line 82), and advance it by the stride (line 68);
fuel-indexed. -/
def strideRun (S : List α) : Nat → Int → Int → Int → Except String (List α)
  | 0, _, _, _ => Except.error "fuel exhausted"
  | fuel + 1, pos, endpos, strideVal =>
    if pos = endpos then Except.ok []
    else
      match listGetI S pos with
      | none => Except.error "dereference out of bounds"
      | some a => (strideRun S fuel (pos + strideVal) endpos strideVal).map (fun l => a :: l)

/-- The element list of `stride(S, n)`: build the adapter, build its
begin and end iterators (which validate the stride), and run the loop
with enough fuel for the whole source plus the final test. -/
def strideToList (S : List α) (n : Int) : Except String (List α) := do
  let st ← stride S n
  let b ← st.cbegin
  let e ← st.cend
  strideRun S (S.length + 1) b.it e.it n

/-- Reference definition following the spec's words: take the first
element, then every `n`-th element after it. -/
def strideSpec (n : Nat) : List α → List α
  | [] => []
  | a :: rest => a :: strideSpec n (rest.drop (n - 1))
termination_by l => l.length
decreasing_by simp; omega

/-- The end offset of a strided range as a natural number (the value of
`strided::end_offset()` when the stride is positive); used to relate the
`Int`-valued source formula to `Nat` arithmetic. -/
def strideEndNat (L m : Nat) : Nat :=
  if L = 0 then 0 else ((L - 1) / m + 1) * m

/-! ## Theorems -/

/-- Claim C9: constructing an integer range with `step == 0` fails
immediately with an invalid-argument condition and produces no partial
object (the `Except.error` carries no `Range`); constructing with any
`step != 0` succeeds without error, yielding exactly the requested
range. -/
theorem mkRange_fails_iff_step_zero :
    ∀ first last step : Int,
      (step = 0 → mkRange first last step =
        Except.error "Step-size cannot be zero in construction of integer range") ∧
      (step ≠ 0 → mkRange first last step = Except.ok ⟨first, last, step⟩) := by
  intro f l s
  constructor <;> intro h <;> simp [mkRange, h]

/-- Witness for claim C9 at step 0 (fails) and step 2 (succeeds). -/
theorem mkRange_fails_iff_step_zero_witness :
    mkRange 1 5 0 = Except.error "Step-size cannot be zero in construction of integer range" ∧
    mkRange 1 5 2 = Except.ok ⟨1, 5, 2⟩ :=
  ⟨(mkRange_fails_iff_step_zero 1 5 0).1 rfl,
   (mkRange_fails_iff_step_zero 1 5 2).2 (by decide)⟩

/-- Claim C8: for two integer-range iterators sharing the same `last` and
`step`, equality holds iff the positions are equal or both iterators are
at end, with at-end direction-aware (`pos >= last` for positive step,
`pos <= last` otherwise); equality with the canonical end iterator
(`pos == last`) holds exactly when the iterator is at end, and two
iterators with different `pos` that are both at end compare equal. -/
theorem rangeIter_eq_pos_or_both_atEnd :
    (∀ p q l s : Int,
      RangeIter.eq ⟨p, l, s⟩ ⟨q, l, s⟩ = true ↔
        (p = q ∨ ((if 0 < s then l ≤ p else p ≤ l) ∧ (if 0 < s then l ≤ q else q ≤ l)))) ∧
    (∀ (r : Range) (p : Int),
      RangeIter.eq ⟨p, r.last, r.step⟩ r.endIter = true ↔
        (if 0 < r.step then r.last ≤ p else p ≤ r.last)) ∧
    RangeIter.eq ⟨12, 10, 1⟩ ⟨15, 10, 1⟩ = true ∧
    RangeIter.eq ⟨12, 10, 1⟩ (Range.endIter ⟨0, 10, 1⟩) = true := by
  refine ⟨fun p q l s => ?_, fun r p => ?_, by decide, by decide⟩
  · simp only [RangeIter.eq, RangeIter.atEnd]
    by_cases h : 0 < s <;> simp [h] <;> omega
  · simp only [RangeIter.eq, RangeIter.atEnd, Range.endIter]
    by_cases h : 0 < r.step <;> simp [h] <;> omega

/-- Counterexample to claim C4: `stride(rg, 0)` does NOT fail at adapter
construction — `itertools::stride` is plain aggregate initialization and
succeeds, returning the adapter holding the non-positive stride. -/
theorem stride_adapter_construction_succeeds_on_zero :
    stride ([1, 2, 3] : List Int) 0 = Except.ok ⟨[1, 2, 3], 0⟩ := rfl

/-- Claim C4 (amended): for every range `rg` and every `n <= 0`, the call
`stride(rg, n)` itself succeeds (no validation happens at adapter
construction); the invalid-argument failure is raised when an iterator of
the strided range is constructed, i.e. by `begin()`/`end()` (and their
const versions), whose `stride_iter` constructor rejects `stride <= 0`. -/
theorem stride_fails_at_iterator_construction :
    ∀ (rg : List α) (n : Int), n ≤ 0 →
      stride rg n = Except.ok ⟨rg, n⟩ ∧
      Strided.cbegin ⟨rg, n⟩ =
        Except.error "The itertools::detail::strided range requires a positive stride" ∧
      Strided.cend ⟨rg, n⟩ =
        Except.error "The itertools::detail::strided range requires a positive stride" := by
  intro rg n h
  refine ⟨rfl, ?_, ?_⟩ <;> simp [Strided.cbegin, Strided.cend, mkStrideIter, h]

/-- Witness for the amended claim C4 at `rg = [1, 2, 3]`, `n = 0`. -/
theorem stride_fails_at_iterator_construction_witness :
    (0 : Int) ≤ 0 ∧
    (stride ([1, 2, 3] : List Int) 0 = Except.ok ⟨[1, 2, 3], 0⟩ ∧
     Strided.cbegin (⟨[1, 2, 3], 0⟩ : Strided Int) =
       Except.error "The itertools::detail::strided range requires a positive stride" ∧
     Strided.cend (⟨[1, 2, 3], 0⟩ : Strided Int) =
       Except.error "The itertools::detail::strided range requires a positive stride") :=
  ⟨le_refl 0, stride_fails_at_iterator_construction [1, 2, 3] 0 (le_refl 0)⟩

/-- Claim C1, evaluated at the failing input `A = [0]` (length 1),
`B = []` (empty): the claim (and the library's own documentation) says the
product range has `1 * 0 = 0` elements, i.e. `begin() == end()` and the
loop body never runs. Instead: the begin iterator does not compare equal
to the sentinel, dereferencing it reads the empty range out of bounds, and
no number of increments ever advances the first iterator (the inner
iterator moves past its end without ever comparing equal to it), so the
iteration never reaches the sentinel. -/
theorem product_with_empty_inner_range_never_terminates :
    (∀ k : Nat,
      (ProdIter.increment 0)^[k] (⟨0, 0⟩ : ProdIter) = ⟨0, k⟩ ∧
      prodEqSentinel ([(0 : Int)].length) ((ProdIter.increment 0)^[k] ⟨0, 0⟩) = false) ∧
    (∀ fuel : Nat,
      prodRun [(0 : Int)] ([] : List Int) (fuel + 1) ⟨0, 0⟩ =
        Except.error "dereference out of bounds") ∧
    prodDeref [(0 : Int)] ([] : List Int) ⟨0, 0⟩ = none ∧
    prodSpec [(0 : Int)] ([] : List Int) = [] := by
  have hiter : ∀ k : Nat, (ProdIter.increment 0)^[k] (⟨0, 0⟩ : ProdIter) = ⟨0, k⟩ := by
    intro k
    induction k with
    | zero => rfl
    | succ k ih =>
      rw [Function.iterate_succ_apply', ih]
      simp [ProdIter.increment]
  refine ⟨fun k => ⟨hiter k, ?_⟩, fun fuel => ?_, rfl, rfl⟩
  · rw [hiter k]
    simp [prodEqSentinel]
  · simp [prodRun, prodEqSentinel, prodDeref]

/-- Unfolding `prodSpec` over a cons cell. -/
theorem prodSpec_cons (a : α) (A : List α) (B : List β) :
    prodSpec (a :: A) B = B.map (fun b => (a, b)) ++ prodSpec A B := by
  simp [prodSpec]

/-- Running the product loop from state `(i, j)` with the second range
non-empty yields the rest of row `i` followed by all later rows, given
enough fuel. -/
theorem prodRun_from (A : List α) (B : List β) :
    ∀ (fuel i j : Nat) (hi : i < A.length) (hj : j < B.length),
      (A.length - i) * B.length - j < fuel →
      prodRun A B fuel ⟨i, j⟩ =
        Except.ok (((B.drop j).map (fun b => (A[i], b))) ++ prodSpec (A.drop (i + 1)) B) := by
  intro fuel
  induction fuel with
  | zero =>
    intro i j hi hj hfuel
    have h1 : B.length ≤ (A.length - i) * B.length :=
      Nat.le_mul_of_pos_left _ (by omega)
    omega
  | succ fuel ih =>
    intro i j hi hj hfuel
    have hsent : prodEqSentinel A.length ⟨i, j⟩ = false := by
      simp [prodEqSentinel]
      omega
    have hderef : prodDeref A B ⟨i, j⟩ = some (A[i], B[j]) := by
      simp [prodDeref, List.getElem?_eq_getElem, hi, hj]
    have hBj : B.drop j = B[j] :: B.drop (j + 1) := List.drop_eq_getElem_cons hj
    by_cases hjn : j + 1 = B.length
    · have hinc : ProdIter.increment B.length ⟨i, j⟩ = ⟨i + 1, 0⟩ := by
        simp [ProdIter.increment, hjn]
      have hdropB : B.drop (j + 1) = [] := by
        rw [hjn]
        exact List.drop_eq_nil_of_le (le_refl _)
      by_cases him : i + 1 < A.length
      · have hx : (A.length - (i + 1)) * B.length + B.length = (A.length - i) * B.length := by
          have h2 : A.length - i = (A.length - (i + 1)) + 1 := by omega
          rw [h2, Nat.add_mul, Nat.one_mul]
        have hbound : (A.length - (i + 1)) * B.length - 0 < fuel := by omega
        have hrec := ih (i + 1) 0 him (by omega) hbound
        have hA1 : A.drop (i + 1) = A[i + 1] :: A.drop (i + 1 + 1) :=
          List.drop_eq_getElem_cons him
        rw [prodRun, if_neg (by simp [hsent]), hderef, hinc, hrec, hA1, prodSpec_cons]
        rw [hBj, hdropB]
        simp [Except.map]
      · have hieq : i + 1 = A.length := by omega
        have hfuel1 : 1 ≤ fuel := by
          have h1 : B.length ≤ (A.length - i) * B.length :=
            Nat.le_mul_of_pos_left _ (by omega)
          omega
        obtain ⟨fuel2, hf2⟩ : ∃ fuel2, fuel = fuel2 + 1 := ⟨fuel - 1, by omega⟩
        have hstop : prodRun A B fuel ⟨i + 1, 0⟩ = Except.ok [] := by
          rw [hf2, prodRun, if_pos (by simp [prodEqSentinel, hieq])]
        have hdropA : A.drop (i + 1) = [] := by
          rw [hieq]
          exact List.drop_eq_nil_of_le (le_refl _)
        rw [prodRun, if_neg (by simp [hsent]), hderef, hinc, hstop, hBj, hdropB, hdropA]
        simp [prodSpec, Except.map]
    · have hinc : ProdIter.increment B.length ⟨i, j⟩ = ⟨i, j + 1⟩ := by
        simp [ProdIter.increment, hjn]
      have h1 : B.length ≤ (A.length - i) * B.length :=
        Nat.le_mul_of_pos_left _ (by omega)
      have hrec := ih i (j + 1) hi (by omega) (by omega)
      rw [prodRun, if_neg (by simp [hsent]), hderef, hinc, hrec]
      simp only [Except.map, hBj, List.map_cons, List.cons_append]

/-- The length of the row-major enumeration is the product of the
lengths. -/
theorem prodSpec_length (A : List α) (B : List β) :
    (prodSpec A B).length = A.length * B.length := by
  induction A with
  | nil => simp [prodSpec]
  | cons a A ih =>
    rw [prodSpec_cons]
    simp [ih, Nat.succ_mul]
    omega

/-- The row-major product law away from the degenerate input of claim C1:
whenever the second range is non-empty or the first is empty,
`product(A, B)` yields exactly the `m * n` pairs in row-major order with
the second range varying fastest. -/
theorem product_row_major (A : List α) (B : List β) (h : B ≠ [] ∨ A = []) :
    prodToList A B = Except.ok (prodSpec A B) ∧
    (prodSpec A B).length = A.length * B.length := by
  refine ⟨?_, prodSpec_length A B⟩
  by_cases hA : A = []
  · subst hA
    rw [prodToList, prodRun, if_pos (by simp [prodEqSentinel])]
    simp [prodSpec]
  · have hB : B ≠ [] := by tauto
    have hA0 : 0 < A.length := List.length_pos.mpr hA
    have hB0 : 0 < B.length := List.length_pos.mpr hB
    have hfrom := prodRun_from A B (A.length * B.length + 1) 0 0 hA0 hB0
      (by simp only [Nat.sub_zero]; omega)
    rw [prodToList, hfrom]
    have hA1 : A.drop 0 = A[0] :: A.drop 1 := List.drop_eq_getElem_cons hA0
    have hspec : prodSpec A B = (B.map (fun b => (A[0], b))) ++ prodSpec (A.drop 1) B := by
      conv_lhs => rw [show A = A[0] :: A.drop 1 from by simpa using hA1]
      rw [prodSpec_cons]
    rw [hspec]
    simp

/-- The row-major product law at work on the documentation's example
shape: `product([1, 2, 3], [10, 20])` has the 6 pairs in row-major order
with the second range varying fastest. -/
theorem product_row_major_example :
    prodToList ([1, 2, 3] : List Int) ([10, 20] : List Int) =
      Except.ok [(1, 10), (1, 20), (2, 10), (2, 20), (3, 10), (3, 20)] := by
  have h := (product_row_major ([1, 2, 3] : List Int) ([10, 20] : List Int)
    (Or.inl (by decide))).1
  rw [h]
  rfl

/-- Running the zip loop from synchronized positions `k` produces the zip
of the remaining suffixes, given enough fuel. -/
theorem zipRun_from (A : List α) (B : List β) :
    ∀ (fuel k : Nat), k ≤ min A.length B.length → min A.length B.length - k < fuel →
      zipRun A B fuel ⟨k, k⟩ = Except.ok ((A.drop k).zip (B.drop k)) := by
  intro fuel
  induction fuel with
  | zero => omega
  | succ fuel ih =>
    intro k hk hfuel
    by_cases hs : zipEqSentinel A.length B.length ⟨k, k⟩ = true
    · have hends : k = A.length ∨ k = B.length := by
        simpa [zipEqSentinel] using hs
      have hnil : (A.drop k).zip (B.drop k) = [] := by
        rcases hends with h | h
        · rw [List.drop_eq_nil_of_le (le_of_eq h.symm), List.zip_nil_left]
        · have hdB : B.drop k = [] := List.drop_eq_nil_of_le (le_of_eq h.symm)
          rw [hdB, List.zip_nil_right]
      simp [zipRun, hs, hnil]
    · have hkA : k < A.length := by
        simp only [zipEqSentinel, Bool.or_eq_true, beq_iff_eq] at hs
        omega
      have hkB : k < B.length := by
        simp only [zipEqSentinel, Bool.or_eq_true, beq_iff_eq] at hs
        omega
      have hderef : zipDeref A B ⟨k, k⟩ = some (A[k], B[k]) := by
        simp [zipDeref, List.getElem?_eq_getElem, hkA, hkB]
      have hrec : zipRun A B fuel ⟨k + 1, k + 1⟩ =
          Except.ok ((A.drop (k + 1)).zip (B.drop (k + 1))) := by
        apply ih <;> omega
      have hstep : (A.drop k).zip (B.drop k) =
          (A[k], B[k]) :: (A.drop (k + 1)).zip (B.drop (k + 1)) := by
        rw [List.drop_eq_getElem_cons hkA, List.drop_eq_getElem_cons hkB, List.zip_cons_cons]
      simp [zipRun, hs, hderef, ZipIter.increment, hrec, hstep, Except.map]

/-- Claim C2: `zip(A, B)` yields exactly `min(m, n)` pairs
`(A[i], B[i])` in order (the list `A.zip B`); iteration stops as soon as
any one iterator reaches its end (the any-equal sentinel test), silently
dropping the surplus of the longer range. -/
theorem zip_yields_min_length_pairs :
    ∀ (A : List α) (B : List β),
      zipToList A B = Except.ok (A.zip B) ∧
      (A.zip B).length = min A.length B.length := by
  intro A B
  constructor
  · have h := zipRun_from A B (min A.length B.length + 1) 0 (by omega) (by omega)
    simpa [zipToList] using h
  · exact List.length_zip A B

/-- Claim C7: `chunk_range(first, last, n_chunks, rank)` partitions
`[first, last)` into `n_chunks` contiguous, disjoint, gap-free,
order-preserving sub-intervals: each chunk's size is the quotient plus one
exactly for the first `remainder` ranks (so sizes differ by at most 1),
chunk 0 starts at `first`, chunk `n_chunks - 1` ends at `last`, each
chunk's end is the next chunk's start, and every chunk is
well-ordered (start <= end). -/
theorem chunk_range_partition :
    ∀ first last n_chunks rank : Int, first ≤ last → 0 < n_chunks → 0 ≤ rank → rank < n_chunks →
      ((chunk_range first last n_chunks rank).2 - (chunk_range first last n_chunks rank).1 =
        Int.tdiv (last - first) n_chunks +
          (if rank < last - first - n_chunks * Int.tdiv (last - first) n_chunks then 1 else 0)) ∧
      (chunk_range first last n_chunks 0).1 = first ∧
      (chunk_range first last n_chunks (n_chunks - 1)).2 = last ∧
      (chunk_range first last n_chunks rank).2 = (chunk_range first last n_chunks (rank + 1)).1 ∧
      (chunk_range first last n_chunks rank).1 ≤ (chunk_range first last n_chunks rank).2 := by
  intro first last n rank hfl hn hr0 hrn
  have key : ∀ q r : Int, last - first = n * q + r → 0 ≤ r → r < n → 0 ≤ q →
      Int.tdiv (last - first) n = q →
      ((chunk_range first last n rank).2 - (chunk_range first last n rank).1 =
        Int.tdiv (last - first) n +
          (if rank < last - first - n * Int.tdiv (last - first) n then 1 else 0)) ∧
      (chunk_range first last n 0).1 = first ∧
      (chunk_range first last n (n - 1)).2 = last ∧
      (chunk_range first last n rank).2 = (chunk_range first last n (rank + 1)).1 ∧
      (chunk_range first last n rank).1 ≤ (chunk_range first last n rank).2 := by
    intro q r h1 h2 h3 h4 h5
    have hlarge : last - first - n * q = r := by linarith
    simp only [chunk_range, h5, hlarge]
    refine ⟨?_, ?_, ?_, ?_, ?_⟩
    · split_ifs <;> dsimp only <;> ring
    · split_ifs with h
      · dsimp only; ring
      · dsimp only
        have : r = 0 := by linarith
        rw [this]; ring
    · rw [if_neg (by omega : ¬ (n - 1 < r))]
      dsimp only
      linear_combination -h1
    · by_cases hc1 : rank + 1 < r
      · rw [if_pos (by omega), if_pos hc1]
      · by_cases hc2 : rank < r
        · rw [if_pos hc2, if_neg hc1]
          dsimp only
          have : rank + 1 = r := by omega
          linear_combination this
        · rw [if_neg hc2, if_neg (by omega : ¬ (rank + 1 < r))]
    · split_ifs <;> dsimp only <;> nlinarith
  have ht0 : (0 : Int) ≤ last - first := by omega
  have hdiv : Int.tdiv (last - first) n = (last - first) / n :=
    Int.tdiv_eq_ediv ht0 (by omega)
  refine key ((last - first) / n) ((last - first) % n) ?_ ?_ ?_ ?_ hdiv
  · have := Int.ediv_add_emod (last - first) n
    linarith
  · exact Int.emod_nonneg _ (by omega)
  · exact Int.emod_lt_of_pos _ hn
  · exact Int.ediv_nonneg ht0 (by omega)

/-- Witness for claim C7 at `chunk_range(0, 10, 4, 1)`, together with the
concrete chunkings of `[0, 10)` into 3 and into 4 chunks from the spec. -/
theorem chunk_range_partition_witness :
    ((0 : Int) ≤ 10 ∧ (0 : Int) < 4 ∧ (0 : Int) ≤ 1 ∧ (1 : Int) < 4 ∧
      ((chunk_range 0 10 4 1).2 - (chunk_range 0 10 4 1).1 =
        Int.tdiv (10 - 0) 4 + (if 1 < 10 - 0 - 4 * Int.tdiv (10 - 0) 4 then 1 else 0)) ∧
      (chunk_range 0 10 4 1).2 = (chunk_range 0 10 4 2).1) ∧
    chunk_range 0 10 3 0 = (0, 4) ∧ chunk_range 0 10 3 1 = (4, 7) ∧
    chunk_range 0 10 3 2 = (7, 10) ∧
    chunk_range 0 10 4 0 = (0, 3) ∧ chunk_range 0 10 4 1 = (3, 6) ∧
    chunk_range 0 10 4 2 = (6, 8) ∧ chunk_range 0 10 4 3 = (8, 10) := by
  have h := chunk_range_partition 0 10 4 1 (by decide) (by decide) (by decide) (by decide)
  exact ⟨⟨by decide, by decide, by decide, by decide, h.1, h.2.2.2.1⟩,
    by decide, by decide, by decide, by decide, by decide, by decide, by decide⟩

/-- With enough fuel, the `foreach` loop for a positive step collects
exactly `foreachVals`. -/
theorem foreachRun_eq_foreachVals (l s : Int) (hs : 0 < s) :
    ∀ (fuel : Nat) (f : Int), (l - f).toNat < fuel →
      foreachRun fuel f l s = some (foreachVals f l s) := by
  intro fuel
  induction fuel with
  | zero => omega
  | succ fuel ih =>
    intro f hf
    by_cases h : f < l
    · rw [foreachVals, if_pos ⟨hs, h⟩]
      simp only [foreachRun, if_pos h]
      rw [ih (f + s) (by omega)]
      rfl
    · rw [foreachVals, if_neg (by tauto)]
      simp only [foreachRun, if_neg h]

/-- When the loop condition fails at entry, `foreachVals` is empty. -/
theorem foreachVals_eq_nil (f l s : Int) (h : l ≤ f) : foreachVals f l s = [] := by
  rw [foreachVals, if_neg (by omega)]

/-- For a positive step, `foreachVals` is the arithmetic progression of
the first `countStrictlyBefore` terms. -/
theorem foreachVals_eq_range_map (l s : Int) (hs : 0 < s) :
    ∀ (d : Nat) (f : Int), (l - f).toNat ≤ d →
      foreachVals f l s =
        (List.range (countStrictlyBefore f l s)).map (fun k : Nat => f + (k : Int) * s) := by
  intro d
  induction d with
  | zero =>
    intro f hf
    have h : ¬ f < l := by omega
    rw [foreachVals, if_neg (by tauto), countStrictlyBefore, if_pos hs, if_neg h]
    rfl
  | succ d ih =>
    intro f hf
    by_cases h : f < l
    · rw [foreachVals, if_pos ⟨hs, h⟩, countStrictlyBefore, if_pos hs, if_pos h,
        List.range_succ_eq_map, List.map_cons, List.map_map, ih (f + s) (by omega)]
      have hfun : ((fun k : Nat => f + (k : Int) * s) ∘ Nat.succ) =
          (fun k : Nat => (f + s) + (k : Int) * s) := by
        funext k
        simp only [Function.comp_apply, Nat.succ_eq_add_one]
        push_cast
        ring
      rw [hfun]
      simp
    · rw [foreachVals, if_neg (by tauto), countStrictlyBefore, if_pos hs, if_neg h]
      rfl

/-- Claim C10: `foreach(rg, f)` invokes `f` exactly on the prefix of
`first, first + step, first + 2*step, ...` whose values are strictly less
than `last`, in that order (for positive step this is the whole set of
progression terms strictly before `last`, counted by
`countStrictlyBefore`); in particular, whenever `last <= first` — which
includes every range with negative step and `first > last`, i.e. a
non-empty descending range — `foreach` invokes `f` zero times. -/
theorem foreach_invokes_on_values_strictly_before_last :
    ∀ first last step : Int,
      ((0 < step ∨ last ≤ first) →
        foreachRun ((last - first).toNat + 1) first last step =
          some (foreachVals first last step)) ∧
      (0 < step →
        foreachVals first last step =
          (List.range (countStrictlyBefore first last step)).map
            (fun k : Nat => first + (k : Int) * step)) ∧
      (last ≤ first → foreachVals first last step = []) := by
  intro f l s
  refine ⟨?_, fun hs => foreachVals_eq_range_map l s hs (l - f).toNat f (le_refl _),
    fun h => foreachVals_eq_nil f l s h⟩
  rintro (hs | hlf)
  · exact foreachRun_eq_foreachVals l s hs _ f (by omega)
  · rw [foreachVals_eq_nil f l s hlf]
    simp only [foreachRun, if_neg (by omega : ¬ f < l)]

/-- Witness for claim C10 at the descending range `(first, last, step) =
(5, 2, -1)` (zero invocations) and at `(0, 10, 3)` (four invocations on
0, 3, 6, 9). -/
theorem foreach_invokes_witness :
    ((0 : Int) < -1 ∨ (2 : Int) ≤ 5) ∧
    foreachRun 1 5 2 (-1) = some (foreachVals 5 2 (-1)) ∧
    foreachVals 5 2 (-1) = [] ∧
    foreachRun 11 0 10 3 = some (foreachVals 0 10 3) ∧
    foreachRun 11 0 10 3 = some [0, 3, 6, 9] := by
  have h1 := foreach_invokes_on_values_strictly_before_last 5 2 (-1)
  have h2 := foreach_invokes_on_values_strictly_before_last 0 10 3
  have hrun1 : foreachRun ((2 - 5 : Int).toNat + 1) 5 2 (-1) = some (foreachVals 5 2 (-1)) :=
    h1.1 (Or.inr (by decide))
  have hrun2 : foreachRun ((10 - 0 : Int).toNat + 1) 0 10 3 = some (foreachVals 0 10 3) :=
    h2.1 (Or.inl (by decide))
  have hnil : foreachVals 5 2 (-1) = [] := h1.2.2 (by decide)
  refine ⟨Or.inr (by decide), hrun1, hnil, hrun2, ?_⟩
  rw [hrun2] at *
  exact (by decide : foreachRun 11 0 10 3 = some [0, 3, 6, 9])

/-- For a positive step, `countStrictlyBefore` has the closed form
`(dist + (step - 1)) / step` in natural-number arithmetic. -/
theorem count_pos_formula (l s : Int) (hs : 0 < s) :
    ∀ (d : Nat) (f : Int), (l - f).toNat ≤ d →
      countStrictlyBefore f l s = ((l - f).toNat + (s.toNat - 1)) / s.toNat := by
  have hm : 0 < s.toNat := by omega
  intro d
  induction d with
  | zero =>
    intro f hf
    have h : ¬ f < l := by omega
    rw [countStrictlyBefore, if_pos hs, if_neg h]
    exact (Nat.div_eq_of_lt (by omega)).symm
  | succ d ih =>
    intro f hf
    by_cases h : f < l
    · rw [countStrictlyBefore, if_pos hs, if_pos h, ih (f + s) (by omega)]
      have hDm : (l - (f + s)).toNat = (l - f).toNat - s.toNat := by omega
      rw [hDm]
      generalize hD : (l - f).toNat = D
      generalize hM : s.toNat = m
      have hD1 : 1 ≤ D := by omega
      have hm1 : 0 < m := by omega
      have h1 : D + (m - 1) = (D - 1) + m := by omega
      rw [h1, Nat.add_div_right _ hm1]
      by_cases hbig : m + 1 ≤ D
      · have h2 : D - m + (m - 1) = (D - m - 1) + m := by omega
        have h3 : D - 1 = (D - m - 1) + m := by omega
        rw [h2, h3, Nat.add_div_right _ hm1]
      · have h2 : D - m = 0 := by omega
        rw [h2, Nat.zero_add, Nat.div_eq_of_lt (by omega), Nat.div_eq_of_lt (by omega)]
    · rw [countStrictlyBefore, if_pos hs, if_neg h]
      exact (Nat.div_eq_of_lt (by omega)).symm

/-- For a negative step, `countStrictlyBefore` has the mirrored closed
form with the distance and step negated. -/
theorem count_neg_formula (l s : Int) (hs : s < 0) :
    ∀ (d : Nat) (f : Int), (f - l).toNat ≤ d →
      countStrictlyBefore f l s = ((f - l).toNat + ((-s).toNat - 1)) / (-s).toNat := by
  have hm : 0 < (-s).toNat := by omega
  intro d
  induction d with
  | zero =>
    intro f hf
    have h : ¬ l < f := by omega
    rw [countStrictlyBefore, if_neg (by omega), if_pos hs, if_neg h]
    exact (Nat.div_eq_of_lt (by omega)).symm
  | succ d ih =>
    intro f hf
    by_cases h : l < f
    · rw [countStrictlyBefore, if_neg (by omega), if_pos hs, if_pos h, ih (f + s) (by omega)]
      have hDm : (f + s - l).toNat = (f - l).toNat - (-s).toNat := by omega
      rw [hDm]
      generalize hD : (f - l).toNat = D
      generalize hM : (-s).toNat = m
      have hD1 : 1 ≤ D := by omega
      have hm1 : 0 < m := by omega
      have h1 : D + (m - 1) = (D - 1) + m := by omega
      rw [h1, Nat.add_div_right _ hm1]
      by_cases hbig : m + 1 ≤ D
      · have h2 : D - m + (m - 1) = (D - m - 1) + m := by omega
        have h3 : D - 1 = (D - m - 1) + m := by omega
        rw [h2, h3, Nat.add_div_right _ hm1]
      · have h2 : D - m = 0 := by omega
        rw [h2, Nat.zero_add, Nat.div_eq_of_lt (by omega), Nat.div_eq_of_lt (by omega)]
    · rw [countStrictlyBefore, if_neg (by omega), if_pos hs, if_neg h]
      exact (Nat.div_eq_of_lt (by omega)).symm

/-- The clamped truncating-division formula equals the natural-number
ceiling-count formula for a positive divisor. -/
theorem tdiv_count_formula (D s : Int) (hs : 0 < s) :
    max 0 (Int.tdiv (D + s - 1) s) = (((D.toNat + (s.toNat - 1)) / s.toNat : Nat) : Int) := by
  obtain ⟨m, hsm, hms⟩ : ∃ m : Nat, s = (m : Int) ∧ s.toNat = m := ⟨s.toNat, by omega, rfl⟩
  have hm1 : 0 < m := by omega
  rw [hms]
  by_cases hD : 1 ≤ D
  · obtain ⟨a, ha, haa⟩ : ∃ a : Nat, D + s - 1 = (a : Int) ∧ D.toNat + (m - 1) = a :=
      ⟨(D + s - 1).toNat, by omega, by omega⟩
    rw [ha, hsm, ← Int.ofNat_tdiv, haa]
    exact max_eq_right (Int.natCast_nonneg _)
  · have hr : (D.toNat + (m - 1)) / m = 0 := Nat.div_eq_of_lt (by omega)
    rw [hr]
    by_cases hnum : 0 ≤ D + s - 1
    · obtain ⟨a, ha, halt⟩ : ∃ a : Nat, D + s - 1 = (a : Int) ∧ a < m :=
        ⟨(D + s - 1).toNat, by omega, by omega⟩
      rw [ha, hsm, ← Int.ofNat_tdiv, Nat.div_eq_of_lt halt]
      rfl
    · have h1 : Int.tdiv (D + s - 1) s = -(Int.tdiv (-(D + s - 1)) s) := by
        rw [← Int.neg_tdiv, neg_neg]
      have h2 : 0 ≤ Int.tdiv (-(D + s - 1)) s := Int.tdiv_nonneg (by omega) (by omega)
      rw [h1]
      have h3 : -(Int.tdiv (-(D + s - 1)) s) ≤ 0 := by omega
      rw [max_eq_left h3]
      rfl

/-- Claim C3: for every integer range with `step != 0`, `size()` — the
source formula `max(0, (last + step - sign(step) - first) / step)` with
truncation toward zero — equals the count of terms
`first, first + step, first + 2*step, ...` strictly before `last` in the
direction of `step`. -/
theorem range_size_eq_count :
    ∀ first last step : Int, step ≠ 0 →
      Range.size ⟨first, last, step⟩ = (countStrictlyBefore first last step : Int) := by
  intro f l s hs
  rcases lt_or_gt_of_ne hs with hneg | hpos
  · rw [count_neg_formula l s hneg (f - l).toNat f (le_refl _)]
    show max 0 (Int.tdiv (l + s - (if 0 < s then 1 else -1) - f) s) = _
    rw [if_neg (by omega)]
    have hrw : l + s - (-1) - f = -((f - l) + (-s) - 1) := by ring
    rw [hrw, Int.neg_tdiv, ← Int.tdiv_neg]
    exact tdiv_count_formula (f - l) (-s) (by omega)
  · rw [count_pos_formula l s hpos (l - f).toNat f (le_refl _)]
    show max 0 (Int.tdiv (l + s - (if 0 < s then 1 else -1) - f) s) = _
    rw [if_pos hpos]
    have hrw : l + s - 1 - f = (l - f) + s - 1 := by ring
    rw [hrw]
    exact tdiv_count_formula (l - f) s hpos

/-- Witness for claim C3 at `range(0, 10, 3)`, whose size is 4. -/
theorem range_size_eq_count_witness :
    (3 : Int) ≠ 0 ∧
    Range.size ⟨0, 10, 3⟩ = (countStrictlyBefore 0 10 3 : Int) ∧
    Range.size ⟨0, 10, 3⟩ = 4 :=
  ⟨by decide, range_size_eq_count 0 10 3 (by decide), by decide⟩

/-- Running the position loop from `p` to `p + d` yields the `d` elements
starting at `p`, given that they exist and the fuel suffices. -/
theorem sliceRun_take (S : List α) :
    ∀ (d fuel p : Nat), p + d ≤ S.length → d < fuel →
      sliceRun S fuel (p : Int) ((p : Int) + (d : Int)) = Except.ok ((S.drop p).take d) := by
  intro d
  induction d with
  | zero =>
    intro fuel p hlen hfuel
    cases fuel with
    | zero => omega
    | succ fuel => simp [sliceRun]
  | succ d ih =>
    intro fuel p hlen hfuel
    cases fuel with
    | zero => omega
    | succ fuel =>
      have hne : ¬ ((p : Int) = (p : Int) + ((d + 1 : Nat) : Int)) := by push_cast; omega
      have hp : p < S.length := by omega
      have hderef : listGetI S (p : Int) = some S[p] := by
        simp [listGetI, List.getElem?_eq_getElem, hp]
      have hcast : (p : Int) + 1 = ((p + 1 : Nat) : Int) := by push_cast; ring
      have hcast2 : (p : Int) + ((d + 1 : Nat) : Int) =
          ((p + 1 : Nat) : Int) + (d : Int) := by push_cast; ring
      rw [sliceRun, if_neg hne, hderef, hcast2, hcast, ih fuel (p + 1) (by omega) (by omega),
        List.drop_eq_getElem_cons hp, List.take_succ_cons]
      rfl

/-- Claim C5 (amended): for every sequence `S` and indices with
`0 <= start_idx <= len(S)`: when `start_idx <= end_idx`, the slice yields
exactly `S[start_idx .. min(end_idx, len(S)) - 1]` in order (empty when
`start_idx >= min(end_idx, len(S))`); when `end_idx <= start_idx`, the end
index is clamped to `max(start_idx, end_idx) = start_idx` at construction
and the slice is empty. -/
theorem slice_yields_clamped_segment :
    ∀ (S : List α) (start_idx end_idx : Int),
      0 ≤ start_idx → start_idx ≤ (S.length : Int) →
      (start_idx ≤ end_idx →
        sliceToList S start_idx end_idx =
          Except.ok ((S.take (min end_idx (S.length : Int)).toNat).drop start_idx.toNat)) ∧
      (end_idx ≤ start_idx → sliceToList S start_idx end_idx = Except.ok []) := by
  intro S s e h0 hlen
  have core : ∀ E : Int, max s e = E →
      sliceToList S s e =
        Except.ok ((S.drop s.toNat).take (min (S.length : Int) E - s).toNat) := by
    intro E hE
    have hσ : 0 ≤ min (S.length : Int) E - s := by omega
    simp only [sliceToList, slice, Sliced.cbegin, Sliced.cend, Sliced.size, hE]
    have h1 : s = ((s.toNat : Nat) : Int) := by omega
    have h2 : s + (min (S.length : Int) E - s) =
        ((s.toNat : Nat) : Int) + (((min (S.length : Int) E - s).toNat : Nat) : Int) := by
      omega
    rw [h2, h1]
    exact sliceRun_take S _ _ _ (by omega) (by omega)
  constructor
  · intro hse
    have h := core e (max_eq_right hse)
    rw [h, List.take_drop]
    have h3 : s.toNat + (min (S.length : Int) e - s).toNat = (min e (S.length : Int)).toNat := by
      omega
    rw [h3]
  · intro hes
    have h := core s (max_eq_left hes)
    rw [h]
    have h3 : (min (S.length : Int) s - s).toNat = 0 := by omega
    rw [h3, List.take_zero]

/-- Witness for the amended claim C5 at `S = [10, 20, 30, 40, 50]`,
`start = 1`, `end = 3` (yields `[20, 30]`) and at `end = 0 < start`
(yields `[]`). -/
theorem slice_yields_clamped_segment_witness :
    ((0 : Int) ≤ 1 ∧ (1 : Int) ≤ (([10, 20, 30, 40, 50] : List Int).length : Int)) ∧
    sliceToList ([10, 20, 30, 40, 50] : List Int) 1 3 =
      Except.ok ((([10, 20, 30, 40, 50] : List Int).take
        (min (3 : Int) (([10, 20, 30, 40, 50] : List Int).length : Int)).toNat).drop
          (1 : Int).toNat) ∧
    sliceToList ([10, 20, 30, 40, 50] : List Int) 1 3 = Except.ok [20, 30] ∧
    sliceToList ([10, 20, 30, 40, 50] : List Int) 1 0 = Except.ok [] := by
  have h13 := slice_yields_clamped_segment ([10, 20, 30, 40, 50] : List Int) 1 3
    (by decide) (by decide)
  have h10 := slice_yields_clamped_segment ([10, 20, 30, 40, 50] : List Int) 1 0
    (by decide) (by decide)
  exact ⟨⟨by decide, by decide⟩, h13.1 (by decide), rfl, h10.2 (by decide)⟩

/-- Counterexample to claim C5 as stated: at `S = []`, `start = 1`,
`end = 2` (indices with `0 <= start <= end`) the claim says the slice is
empty, but the computed size is negative, the end iterator lies before the
begin iterator, and iterating dereferences the empty source out of bounds
instead of yielding the empty list — for the canonical fuel and for a
larger fuel alike. -/
theorem slice_claim_fails_past_the_end :
    sliceToList ([] : List Int) 1 2 = Except.error "dereference out of bounds" ∧
    Sliced.size (slice ([] : List Int) 1 2) = -1 ∧
    sliceRun ([] : List Int) 5 1 0 = Except.error "dereference out of bounds" := by
  refine ⟨rfl, by decide, rfl⟩

/-- The end offset is at least the source length. -/
theorem strideEndNat_ge (L m : Nat) (hm : 0 < m) : L ≤ strideEndNat L m := by
  by_cases hL : L = 0
  · simp [strideEndNat, hL]
  · obtain ⟨K, hK⟩ : ∃ K, L = K + 1 := ⟨L - 1, by omega⟩
    subst hK
    simp only [strideEndNat, if_neg (Nat.succ_ne_zero K), Nat.add_sub_cancel]
    have h4 : m * (K / m) + K % m = K := Nat.div_add_mod K m
    have h2 : K % m < m := Nat.mod_lt _ hm
    have h3 : (K / m + 1) * m = m * (K / m) + m := by ring
    linarith

/-- The end offset is less than one stride past the source length. -/
theorem strideEndNat_lt (L m : Nat) (hm : 0 < m) : strideEndNat L m < L + m := by
  by_cases hL : L = 0
  · simp [strideEndNat, hL, hm]
  · obtain ⟨K, hK⟩ : ∃ K, L = K + 1 := ⟨L - 1, by omega⟩
    subst hK
    simp only [strideEndNat, if_neg (Nat.succ_ne_zero K), Nat.add_sub_cancel]
    have h3 : (K / m + 1) * m = K / m * m + m := by ring
    have h4 : K / m * m ≤ K := Nat.div_mul_le_self K m
    omega

/-- The end offset is a multiple of the stride. -/
theorem strideEndNat_dvd (L m : Nat) : m ∣ strideEndNat L m := by
  by_cases hL : L = 0
  · simp [strideEndNat, hL]
  · exact ⟨(L - 1) / m + 1, by simp [strideEndNat, if_neg hL, Nat.mul_comm]⟩

/-- `strided::end_offset()` with a positive stride equals the
natural-number end offset. -/
theorem strided_end_offset_eq (S : List α) (m : Nat) (_hm : 0 < m) :
    Strided.end_offset ⟨S, (m : Int)⟩ = ((strideEndNat S.length m : Nat) : Int) := by
  simp only [Strided.end_offset, strideEndNat]
  by_cases hL : S.length = 0
  · simp [hL]
  · rw [if_neg (by exact_mod_cast hL), if_neg hL]
    obtain ⟨a, ha, haL⟩ : ∃ a : Nat, ((S.length : Int) : Int) - 1 = (a : Int) ∧
        a = S.length - 1 := ⟨S.length - 1, by omega, rfl⟩
    rw [ha, ← Int.ofNat_tdiv, haL]
    push_cast
    ring

/-- Running the stride loop from position `j` with `d` strides left to the
end offset yields `strideSpec` of the remaining suffix. -/
theorem strideRun_spec (S : List α) (m : Nat) (hm : 0 < m) :
    ∀ (d fuel j : Nat), j + d * m = strideEndNat S.length m → d < fuel →
      strideRun S fuel (j : Int) ((strideEndNat S.length m : Nat) : Int) (m : Int) =
        Except.ok (strideSpec m (S.drop j)) := by
  intro d
  induction d with
  | zero =>
    intro fuel j hj hfuel
    cases fuel with
    | zero => omega
    | succ fuel =>
      have hjE : j = strideEndNat S.length m := by omega
      have hEL : S.length ≤ strideEndNat S.length m := strideEndNat_ge _ _ hm
      have hnil : S.drop j = [] := List.drop_eq_nil_of_le (by omega)
      have hpos : (j : Int) = ((strideEndNat S.length m : Nat) : Int) := by
        exact_mod_cast hjE
      rw [hnil, strideRun, if_pos hpos]
      simp [strideSpec]
  | succ d ih =>
    intro fuel j hj hfuel
    cases fuel with
    | zero => omega
    | succ fuel =>
      rw [show (d + 1) * m = d * m + m by ring] at hj
      have hL : S.length ≠ 0 := by
        intro h0
        simp [strideEndNat, h0] at hj
        omega
      obtain ⟨K, hK⟩ : ∃ K, S.length = K + 1 := ⟨S.length - 1, by omega⟩
      have hE : strideEndNat S.length m = (K / m + 1) * m := by
        simp [strideEndNat, hL, hK]
      have hjK : j ≤ K := by
        have h1 : j + m ≤ (K / m + 1) * m := by
          rw [← hE]
          omega
        have h2 : (K / m + 1) * m = K / m * m + m := by ring
        have h3 : K / m * m ≤ K := Nat.div_mul_le_self K m
        omega
      have hjlt : j < S.length := by omega
      have hne : ¬ ((j : Int) = ((strideEndNat S.length m : Nat) : Int)) := by
        have : j < strideEndNat S.length m := by omega
        exact_mod_cast by omega
      have hderef : listGetI S (j : Int) = some S[j] := by
        simp [listGetI, List.getElem?_eq_getElem, hjlt]
      have hcast : (j : Int) + (m : Int) = ((j + m : Nat) : Int) := by push_cast; ring
      rw [strideRun, if_neg hne, hderef, hcast, ih fuel (j + m) (by omega) (by omega)]
      have hsplit : S.drop j = S[j] :: S.drop (j + 1) := List.drop_eq_getElem_cons hjlt
      rw [hsplit, strideSpec, List.drop_drop, show j + 1 + (m - 1) = j + m by omega]
      rfl

/-- The length of `strideSpec m S` is `ceil(len(S) / m)`. -/
theorem strideSpec_length (m : Nat) (hm : 0 < m) :
    ∀ (N : Nat) (S : List α), S.length ≤ N →
      (strideSpec m S).length = (S.length + m - 1) / m := by
  intro N
  induction N with
  | zero =>
    intro S hS
    have hSnil : S = [] := List.eq_nil_of_length_eq_zero (by omega)
    subst hSnil
    simp only [strideSpec, List.length_nil, Nat.zero_add]
    exact (Nat.div_eq_of_lt (by omega)).symm
  | succ N ih =>
    intro S hS
    cases S with
    | nil =>
      simp only [strideSpec, List.length_nil, Nat.zero_add]
      exact (Nat.div_eq_of_lt (by omega)).symm
    | cons a rest =>
      simp only [List.length_cons] at hS
      simp only [strideSpec, List.length_cons]
      rw [ih (rest.drop (m - 1)) (by rw [List.length_drop]; omega), List.length_drop]
      generalize rest.length = R
      by_cases hR : m - 1 ≤ R
      · rw [show R - (m - 1) + m - 1 = R by omega, show R + 1 + m - 1 = R + m by omega,
          Nat.add_div_right _ hm]
      · rw [show R - (m - 1) + m - 1 = m - 1 by omega, show R + 1 + m - 1 = R + m by omega,
          Nat.add_div_right _ hm, Nat.div_eq_of_lt (by omega), Nat.div_eq_of_lt (by omega)]

/-- Claim C6: for every sequence `S` of length `L` and every stride
`n > 0`, `stride(S, n)` yields exactly `ceil(L / n)` elements, namely
`S[0], S[n], S[2n], ...` in order (`strideSpec`, zero elements when
`L = 0`), because the end iterator is placed at the smallest
multiple-of-`n` offset at or beyond `L` (it is divisible by `n`, at least
`L`, and less than `L + n`). -/
theorem stride_yields_ceil_count :
    ∀ (S : List α) (n : Int), 0 < n →
      strideToList S n = Except.ok (strideSpec n.toNat S) ∧
      (strideSpec n.toNat S).length = (S.length + n.toNat - 1) / n.toNat ∧
      Strided.end_offset ⟨S, n⟩ % n = 0 ∧
      (S.length : Int) ≤ Strided.end_offset ⟨S, n⟩ ∧
      Strided.end_offset ⟨S, n⟩ < (S.length : Int) + n := by
  intro S n hn
  obtain ⟨m, hnm, hmn⟩ : ∃ m : Nat, n = (m : Int) ∧ n.toNat = m := ⟨n.toNat, by omega, rfl⟩
  subst hnm
  have hm : 0 < m := by omega
  rw [hmn]
  obtain ⟨c, hc⟩ := strideEndNat_dvd S.length m
  refine ⟨?_, strideSpec_length m hm S.length S (le_refl _), ?_, ?_, ?_⟩
  · have hd : strideEndNat S.length m / m * m = strideEndNat S.length m :=
      Nat.div_mul_cancel ⟨c, hc⟩
    have hdlt : strideEndNat S.length m / m < S.length + 1 := by
      by_cases hL : S.length = 0
      · simp [strideEndNat, hL]
      · have h4 : strideEndNat S.length m = ((S.length - 1) / m + 1) * m := by
          simp [strideEndNat, hL]
        have h5 : strideEndNat S.length m / m = (S.length - 1) / m + 1 := by
          rw [h4, Nat.mul_div_cancel _ hm]
        have h6 : (S.length - 1) / m ≤ S.length - 1 := Nat.div_le_self _ _
        omega
    have hrun := strideRun_spec S m hm (strideEndNat S.length m / m) (S.length + 1) 0
      (by omega) hdlt
    simp only [List.drop_zero, Nat.cast_zero] at hrun
    have hc0 : ¬ ((m : Int) ≤ 0) := by omega
    have hred : strideToList S (m : Int) =
        strideRun S (S.length + 1) 0 (Strided.end_offset ⟨S, (m : Int)⟩) (m : Int) := by
      simp [strideToList, stride, Strided.cbegin, Strided.cend, mkStrideIter, hc0,
        Bind.bind, Except.bind]
    rw [hred, strided_end_offset_eq S m hm]
    exact hrun
  · rw [strided_end_offset_eq S m hm, hc]
    push_cast
    exact Int.mul_emod_right _ _
  · rw [strided_end_offset_eq S m hm]
    exact_mod_cast strideEndNat_ge S.length m hm
  · rw [strided_end_offset_eq S m hm]
    exact_mod_cast strideEndNat_lt S.length m hm

/-- Witness for claim C6 at `S = [0, ..., 9]`, `n = 3` (four elements:
indices 0, 3, 6, 9; end offset 12). -/
theorem stride_yields_ceil_count_witness :
    (0 : Int) < 3 ∧
    strideToList ([0, 1, 2, 3, 4, 5, 6, 7, 8, 9] : List Int) 3 =
      Except.ok (strideSpec (3 : Int).toNat [0, 1, 2, 3, 4, 5, 6, 7, 8, 9]) ∧
    strideToList ([0, 1, 2, 3, 4, 5, 6, 7, 8, 9] : List Int) 3 = Except.ok [0, 3, 6, 9] ∧
    Strided.end_offset (⟨[0, 1, 2, 3, 4, 5, 6, 7, 8, 9], 3⟩ : Strided Int) = 12 := by
  have h := stride_yields_ceil_count ([0, 1, 2, 3, 4, 5, 6, 7, 8, 9] : List Int) 3 (by decide)
  exact ⟨by decide, h.1, rfl, by decide⟩

end Itertools
